import Mathlib

/-! # Texture atlas (`libs/tex/texture_atlas.h`)

A shallow embedding of the pixel blit `copy_into` and of the `TextureAtlas`
accessors of `libs/tex/texture_atlas.h`, with the properties of the
specification that concern them.

Conventions.

* The C++ `int` values (`x`, `y`, `border`, the loop counters) are `Int` and
  the arithmetic is exact.  Signed overflow is undefined in C++; inputs for
  which an `int` expression of `copy_into` would overflow are outside the
  model.
* An image is a value.  The source and the destination of a blit are
  distinct objects.
* The `assert`s are compiled in.  A fault (a failed `assert`, an access
  outside the pixel buffer) is a value of `Fault`; the functions that may
  fault return `Except Fault _`.
-/

namespace Tex

/-! ## Images -/

/-- Modelled from the spec: the image type `mve::Image<T>` of the header
`mve/image.h`, which is not among the sources.  The spec calls it a pixel
buffer with a width, a height and channels, addressed per pixel and channel.
The layout is the one of the MVE library: one flat sequence of
`width * height * channels` values, rows first, the channels of one pixel next
to each other. -/
structure Image (α : Type) where
  width : Nat
  height : Nat
  channels : Nat
  data : List α
  wf : data.length = width * height * channels
deriving DecidableEq

/-- What stops a run: a failed `assert`, or an access outside a pixel
buffer. -/
inductive Fault where
  | assertion
  | outOfBounds
deriving DecidableEq, Repr

namespace Image

variable {α : Type}

/-- Modelled from the spec: the position of `at(x, y, channel)` in the pixel
buffer of `mve::Image<T>` (not among the sources), as the MVE library computes
it: `channel + channels * (x + y * width)`, with no check of `x`, `y` or
`channel`. -/
def offset (img : Image α) (x y c : Int) : Int :=
  c + (img.channels : Int) * (x + y * (img.width : Int))

/-- Modelled from the spec: the read access `at(x, y, channel) const` of
`mve::Image<T>` (not among the sources).  The access itself checks nothing; a
position outside the buffer has no value. -/
def «at» (img : Image α) (x y c : Int) : Option α :=
  if 0 ≤ img.offset x y c then img.data[(img.offset x y c).toNat]? else none

/-- Modelled from the spec: the write access `at(x, y, channel) = v` of
`mve::Image<T>` (not among the sources).  A position outside the buffer is a
fault. -/
def set (img : Image α) (x y c : Int) (v : α) : Except Fault (Image α) :=
  if 0 ≤ img.offset x y c ∧ img.offset x y c < (img.data.length : Int) then
    .ok { img with
          data := img.data.set (img.offset x y c).toNat v
          wf := by rw [List.length_set]; exact img.wf }
  else
    .error .outOfBounds

/-- An image of the given size with every value equal to `v`. -/
def fill (w h c : Nat) (v : α) : Image α :=
  { width := w, height := h, channels := c
    data := List.replicate (w * h * c) v
    wf := List.length_replicate _ _ }

end Image

/-! ## `copy_into` -/

/-- The two `assert`s of `copy_into`. -/
def copy_into_pre {α : Type} (src : Image α) (x y : Int) (dest : Image α) (border : Int) : Prop :=
  (x ≥ 0 ∧ x + (src.width : Int) + 2 * border ≤ (dest.width : Int)) ∧
  (y ≥ 0 ∧ y + (src.height : Int) + 2 * border ≤ (dest.height : Int))

instance {α : Type} (src : Image α) (x y : Int) (dest : Image α) (border : Int) :
    Decidable (copy_into_pre src x y dest border) := by
  unfold copy_into_pre; infer_instance

/-- The statement `dest->at(x + i, y + j, c) = src->at(sx, sy, c)`. -/
def copy_pixel {α : Type} (src : Image α) (dx dy sx sy : Int) (dest : Image α) (c : Int) :
    Except Fault (Image α) :=
  match src.at sx sy c with
  | some v => dest.set dx dy c v
  | none => .error .outOfBounds

/-- The function `copy_into(src, x, y, dest, border)`: the two asserts, then
the loop over `j`, the loop over `i`, the `continue` and the loop over the
channels. -/
def copy_into {α : Type} (src : Image α) (x y : Int) (dest : Image α) (border : Int) :
    Except Fault (Image α) :=
  if copy_into_pre src x y dest border then
    (List.range ((src.height : Int) + 2 * border).toNat).foldlM (fun dest (j : Nat) =>
      (List.range ((src.width : Int) + 2 * border).toNat).foldlM (fun dest (i : Nat) =>
        let sx : Int := (i : Int) - border
        let sy : Int := (j : Int) - border
        if sx < 0 ∨ sx ≥ (src.width : Int) ∨ sy < 0 ∨ sy ≥ (src.height : Int) then
          pure dest
        else
          (List.range src.channels).foldlM (fun dest (c : Nat) =>
            copy_pixel src (x + (i : Int)) (y + (j : Int)) sx sy dest (c : Int)) dest) dest) dest
  else
    .error .assertion

/-- One executed statement `dest->at(dx, dy, c) = src->at(sx, sy, c)`: the
pixel written, the pixel read, the channel. -/
structure Access where
  dx : Int
  dy : Int
  sx : Int
  sy : Int
  c : Int
deriving DecidableEq, Repr

/-- The accesses of `copy_into(src, x, y, dest, border)` in the order of
execution: the same three loops and the same `continue` as `copy_into`, with
the statement recorded in place of executed.  The loop bounds and the test
read only the sizes of the source, so no pixel value takes part. -/
def copy_into_accesses {α : Type} (src : Image α) (x y : Int) (border : Int) : List Access :=
  (List.range ((src.height : Int) + 2 * border).toNat).flatMap fun (j : Nat) =>
    (List.range ((src.width : Int) + 2 * border).toNat).flatMap fun (i : Nat) =>
      let sx : Int := (i : Int) - border
      let sy : Int := (j : Int) - border
      if sx < 0 ∨ sx ≥ (src.width : Int) ∨ sy < 0 ∨ sy ≥ (src.height : Int) then
        []
      else
        (List.range src.channels).map fun (c : Nat) =>
          { dx := x + (i : Int), dy := y + (j : Int), sx := sx, sy := sy, c := (c : Int) }

/-- Executes recorded statements in order. -/
def run_accesses {α : Type} (src : Image α) (as : List Access) (dest : Image α) :
    Except Fault (Image α) :=
  as.foldlM (fun dest a => copy_pixel src a.dx a.dy a.sx a.sy dest a.c) dest

/-! ## The rectangular bin -/

/-- Modelled from the spec: a rectangle of the bin (the header
`rectangular_bin.h` is not among the sources): the pixel columns
`[min_x, min_x + width)` and the pixel rows `[min_y, min_y + height)`. -/
structure Rect where
  min_x : Nat
  min_y : Nat
  width : Nat
  height : Nat
deriving DecidableEq, Repr

namespace Rect

/-- The pixel `(px, py)` lies in the rectangle. -/
def contains (r : Rect) (px py : Nat) : Prop :=
  (r.min_x ≤ px ∧ px < r.min_x + r.width) ∧ (r.min_y ≤ py ∧ py < r.min_y + r.height)

/-- Two rectangles overlap: the column ranges meet and the row ranges meet
(`overlaps_iff_common_pixel`: the two share a pixel). -/
def overlaps (a b : Rect) : Prop :=
  max a.min_x b.min_x < min (a.min_x + a.width) (b.min_x + b.width) ∧
  max a.min_y b.min_y < min (a.min_y + a.height) (b.min_y + b.height)

instance (a b : Rect) : Decidable (a.overlaps b) := by
  unfold overlaps; infer_instance

/-- The rectangle is fully contained in `[0, size) x [0, size)`. -/
def inside (r : Rect) (size : Nat) : Prop :=
  r.min_x + r.width ≤ size ∧ r.min_y + r.height ≤ size

instance (r : Rect) (size : Nat) : Decidable (r.inside size) := by
  unfold inside; infer_instance

/-- The rectangle `a` lies within the rectangle `b`. -/
def within (a b : Rect) : Prop :=
  (b.min_x ≤ a.min_x ∧ a.min_x + a.width ≤ b.min_x + b.width) ∧
  (b.min_y ≤ a.min_y ∧ a.min_y + a.height ≤ b.min_y + b.height)

end Rect

/-- Modelled from the spec: the class `RectangularBin` (`rectangular_bin.h`
and its implementation are not among the sources).  Spec, data model: the bin
"owns a fixed square extent (side length `size`); internal state is a set of
free rectangular regions". -/
structure RectangularBin where
  size : Nat
  free : List Rect
deriving DecidableEq, Repr

namespace RectangularBin

/-- Modelled from the spec: the empty bin, one free region that is the whole
square. -/
def create (size : Nat) : RectangularBin :=
  { size := size, free := [{ min_x := 0, min_y := 0, width := size, height := size }] }

/-- Modelled from the spec: the placement search and the split of the free
space (spec, RectangularBin: "first-fit in a fixed free-list order"; "newly
placed rectangles split the free region(s) they intersect into remaining free
sub-rectangles"; "the bin never merges or defragments free space").  The
first free region of the list that is wide and high enough takes the
rectangle in its corner `(min_x, min_y)`; what is left of that region is the
strip to the right of the rectangle and the strip below it. -/
def place (w h : Nat) : List Rect → Option (Rect × List Rect)
  | [] => none
  | r :: rs =>
    if w ≤ r.width ∧ h ≤ r.height then
      some ({ min_x := r.min_x, min_y := r.min_y, width := w, height := h },
        { min_x := r.min_x + w, min_y := r.min_y, width := r.width - w, height := h } ::
        { min_x := r.min_x, min_y := r.min_y + h, width := r.width, height := r.height - h } ::
        rs)
    else
      match place w h rs with
      | none => none
      | some (p, rs') => some (p, r :: rs')

/-- Modelled from the spec: `RectangularBin::insert` for a rectangle of `w`
by `h` pixels (spec, RectangularBin: "on success, mark that area occupied and
return the position; on failure (no free region large enough), report failure
without mutating state"; "a patch larger than the bin's size in either
dimension fails immediately"). -/
def insert (bin : RectangularBin) (w h : Nat) : Option (Rect × RectangularBin) :=
  if w > bin.size ∨ h > bin.size then
    none
  else
    match place w h bin.free with
    | none => none
    | some (p, free) => some (p, { bin with free := free })

end RectangularBin

/-! ## The texture atlas -/

/-- Modelled from the spec: the class `TexturePatch` (`texture_patch.h` is not
among the sources): "a rectangular pixel buffer plus per-pixel validity mask,
the list of mesh faces it covers, and each face's local texture-coordinate
triangle".  A coordinate is a pair of rationals. -/
structure TexturePatch where
  image : Image Nat
  validity_mask : Image Nat
  faces : List Nat
  texcoords : List (Rat × Rat)
deriving DecidableEq

/-- The fields of `class TextureAtlas`.  The images are `mve::ByteImage`, with
a pixel value a `Nat`; a `math::Vec2f` is a pair of rationals. -/
structure TextureAtlas where
  size : Nat
  padding : Nat
  finalized : Bool
  faces : List Nat
  texcoords : List (Rat × Rat)
  texcoord_ids : List Nat
  image : Image Nat
  validity_mask : Image Nat
  bin : RectangularBin
deriving DecidableEq

/-- The value `t` moved into `[lo, hi]`. -/
def clamp (t lo hi : Int) : Int := max lo (min t hi)

/-- Modelled from the spec: the border replication of `insert` (spec,
TextureAtlas insert: "replicating border pixels outward by `padding` pixels";
the implementation of `TextureAtlas` is not among the sources).  Every cell of
the padded rectangle outside the patch takes the nearest pixel of the patch. -/
def replicate_border_accesses {α : Type} (src : Image α) (x y : Int) (border : Int) :
    List Access :=
  (List.range ((src.height : Int) + 2 * border).toNat).flatMap fun (j : Nat) =>
    (List.range ((src.width : Int) + 2 * border).toNat).flatMap fun (i : Nat) =>
      let sx : Int := (i : Int) - border
      let sy : Int := (j : Int) - border
      if src.width = 0 ∨ src.height = 0 ∨
          (0 ≤ sx ∧ sx < (src.width : Int) ∧ 0 ≤ sy ∧ sy < (src.height : Int)) then
        []
      else
        (List.range src.channels).map fun (c : Nat) =>
          { dx := x + (i : Int), dy := y + (j : Int),
            sx := clamp sx 0 ((src.width : Int) - 1),
            sy := clamp sy 0 ((src.height : Int) - 1), c := (c : Int) }

/-- Modelled from the spec: the copy of a patch image into an atlas image at
the position the bin returned, with the padding as border, and the
replication of the border pixels. -/
def copy_patch {α : Type} (src : Image α) (x y : Int) (dest : Image α) (border : Int) :
    Except Fault (Image α) :=
  match copy_into src x y dest border with
  | .error e => .error e
  | .ok d => run_accesses src (replicate_border_accesses src x y border) d

namespace TextureAtlas

/-- Modelled from the spec: the constructor `TextureAtlas(size)`, whose body is
not among the sources.  Spec: the atlas is "created empty with a fixed size";
it owns "one `size x size` pixel image and a parallel validity mask" and "one
RectangularBin scoped to the same size"; the padding and the number of channels
of the image are parameters here. -/
def new (size padding channels : Nat) : TextureAtlas :=
  { size := size, padding := padding, finalized := false
    faces := [], texcoords := [], texcoord_ids := []
    image := Image.fill size size channels 0
    validity_mask := Image.fill size size 1 0
    bin := RectangularBin.create size }

/-- The method `get_image`: the exception when the atlas is not finalized, the
image otherwise.  The method is `const`: the atlas comes back as it went
in. -/
def get_image (atlas : TextureAtlas) : Except String (Image Nat) × TextureAtlas :=
  if !atlas.finalized then
    (.error "Texture atlas not finalized", atlas)
  else
    (.ok atlas.image, atlas)

/-- Modelled from the spec: `TextureAtlas::insert` (declared in the header, its
body is not among the sources), with the rectangle the bin returned next to the
new state.  Spec, TextureAtlas insert: "query the bin for a position that fits
the patch width+2·padding by height+2·padding; on failure, return false with no
mutation"; on success copy the pixels and the validity mask with their border,
"translate each of the patch's local face texture coordinates into
atlas-normalized coordinates (pixel position plus half-texel center offset,
divided by `size`) and append them, extending the face list and texcoord-id
list in lockstep".  The statistics `mean` and `max` are not interpreted. -/
def insert_rect (atlas : TextureAtlas) (texture_patch : TexturePatch) (_mean _max : Rat) :
    Except Fault (Option Rect × TextureAtlas) :=
  match atlas.bin.insert (texture_patch.image.width + 2 * atlas.padding)
      (texture_patch.image.height + 2 * atlas.padding) with
  | none => .ok (none, atlas)
  | some (rect, bin) =>
    match copy_patch texture_patch.image rect.min_x rect.min_y atlas.image atlas.padding with
    | .error e => .error e
    | .ok image =>
      match copy_patch texture_patch.validity_mask rect.min_x rect.min_y atlas.validity_mask
          atlas.padding with
      | .error e => .error e
      | .ok validity_mask =>
        .ok (some rect,
          { atlas with
            faces := atlas.faces ++ texture_patch.faces
            texcoords := atlas.texcoords ++ texture_patch.texcoords.map fun t =>
              ((t.1 + ((rect.min_x + atlas.padding : Nat) : Rat) + 1 / 2) / (atlas.size : Rat),
               (t.2 + ((rect.min_y + atlas.padding : Nat) : Rat) + 1 / 2) / (atlas.size : Rat))
            texcoord_ids := atlas.texcoord_ids ++
              (List.range texture_patch.faces.length).map fun (i : Nat) =>
                atlas.texcoords.length + 3 * i
            image := image
            validity_mask := validity_mask
            bin := bin })

/-- Modelled from the spec: `bool TextureAtlas::insert(texture_patch, mean,
max)`: true when the patch was placed, false when the bin had no room. -/
def insert (atlas : TextureAtlas) (texture_patch : TexturePatch) (mean max : Rat) :
    Except Fault (Bool × TextureAtlas) :=
  match atlas.insert_rect texture_patch mean max with
  | .error e => .error e
  | .ok (r, atlas') => .ok (r.isSome, atlas')

/-- Modelled from the spec: the padded rectangles of the accepted placements of
a sequence of `insert` calls on one atlas, in the order of the calls.  A call
that faults ends the sequence. -/
def placements (atlas : TextureAtlas) : List (TexturePatch × Rat × Rat) → List Rect
  | [] => []
  | (p, mean, max) :: ps =>
    match atlas.insert_rect p mean max with
    | .error _ => []
    | .ok (none, atlas') => placements atlas' ps
    | .ok (some r, atlas') => r :: placements atlas' ps

end TextureAtlas

/-! ## Concrete images -/

namespace Example

/-- A source of one pixel, one channel, value 7. -/
def src1 : Image Nat := { width := 1, height := 1, channels := 1, data := [7], wf := rfl }

/-- A source of one pixel, one channel, value 9. -/
def src9 : Image Nat := { width := 1, height := 1, channels := 1, data := [9], wf := rfl }

/-- A source of three by three pixels, one channel. -/
def src3x3 : Image Nat :=
  { width := 3, height := 3, channels := 1, data := [1, 2, 3, 4, 5, 6, 7, 8, 9], wf := rfl }

/-- A source of one pixel with two channels, values 7 and 8. -/
def src2ch : Image Nat := { width := 1, height := 1, channels := 2, data := [7, 8], wf := rfl }

/-- A source of one pixel with three channels. -/
def src3ch : Image Nat := { width := 1, height := 1, channels := 3, data := [1, 2, 3], wf := rfl }

/-- A destination of two pixels in a row, one channel, all 0. -/
def dest2x1 : Image Nat := { width := 2, height := 1, channels := 1, data := [0, 0], wf := rfl }

/-- A destination of one pixel, one channel. -/
def dest1x1 : Image Nat := { width := 1, height := 1, channels := 1, data := [0], wf := rfl }

/-- A patch of three by three pixels with one face. -/
def patch3x3 : TexturePatch :=
  { image := src3x3
    validity_mask := Image.fill 3 3 1 1
    faces := [0]
    texcoords := [(0, 0), (2, 0), (0, 2)] }

/-- A patch of one pixel with one face. -/
def patch1x1 : TexturePatch :=
  { image := src1
    validity_mask := Image.fill 1 1 1 1
    faces := [1]
    texcoords := [(0, 0), (1, 0), (0, 1)] }

/-- The atlas of size 4 with padding 1 after the patch of one pixel was
accepted: the padded rectangle of 3 by 3 lies at `(0, 0)`, the pixel and its
replicated border fill it, the face 1 has its three coordinates, and the bin
has two strips of one pixel left. -/
def atlas1 : TextureAtlas :=
  { size := 4, padding := 1, finalized := false
    faces := [1]
    texcoords := [(3 / 8, 3 / 8), (5 / 8, 3 / 8), (3 / 8, 5 / 8)]
    texcoord_ids := [0]
    image := ⟨4, 4, 1, [7, 7, 7, 0, 7, 7, 7, 0, 7, 7, 7, 0, 0, 0, 0, 0], rfl⟩
    validity_mask := ⟨4, 4, 1, [1, 1, 1, 0, 1, 1, 1, 0, 1, 1, 1, 0, 0, 0, 0, 0], rfl⟩
    bin := { size := 4, free := [⟨3, 0, 1, 3⟩, ⟨0, 3, 4, 1⟩] } }

end Example

/-! ## The accesses of `copy_into` -/

/-- Two loop bodies that agree give the same loop. -/
theorem foldlM_congr_fun {β σ : Type} {f g : σ → β → Except Fault σ}
    (h : ∀ s b, f s b = g s b) (l : List β) (s : σ) :
    l.foldlM f s = l.foldlM g s := by
  have : f = g := by funext s b; exact h s b
  rw [this]

/-- A loop over the statements of a loop nest is the nest of the loops. -/
theorem foldlM_flatMap {α β σ : Type} (f : σ → β → Except Fault σ) (g : α → List β)
    (l : List α) (s : σ) :
    (l.flatMap g).foldlM f s = l.foldlM (fun s a => (g a).foldlM f s) s := by
  induction l generalizing s with
  | nil => rfl
  | cons a l ih =>
    simp only [List.flatMap_cons, List.foldlM_append, List.foldlM_cons]
    congr 1
    funext s1
    exact ih s1

/-- A loop over recorded statements is the loop over their indices. -/
theorem foldlM_map_except {α β σ : Type} (f : σ → β → Except Fault σ) (g : α → β)
    (l : List α) (s : σ) :
    (l.map g).foldlM f s = l.foldlM (fun s a => f s (g a)) s := by
  induction l generalizing s with
  | nil => rfl
  | cons a l ih =>
    simp only [List.map_cons, List.foldlM_cons]
    congr 1
    funext s1
    exact ih s1

/-- The function `copy_into` executes the recorded accesses, in their order. -/
theorem copy_into_eq_run {α : Type} (src : Image α) (x y : Int) (dest : Image α) (border : Int) :
    copy_into src x y dest border =
      if copy_into_pre src x y dest border then
        run_accesses src (copy_into_accesses src x y border) dest
      else .error .assertion := by
  unfold copy_into run_accesses copy_into_accesses
  split
  · rw [foldlM_flatMap]
    apply foldlM_congr_fun
    intro d j
    rw [foldlM_flatMap]
    apply foldlM_congr_fun
    intro d i
    dsimp only
    split
    · rfl
    · rw [foldlM_map_except]
  · rfl

/-! ## The pixel buffer -/

/-- Two cells of an image, each with a column and a channel of the image, that
have one position in the buffer are one cell. -/
theorem Image.offset_inj {α : Type} (img : Image α) {x y c x' y' c' : Int}
    (hc : 0 ≤ c ∧ c < img.channels) (hc' : 0 ≤ c' ∧ c' < img.channels)
    (hx : 0 ≤ x ∧ x < img.width) (hx' : 0 ≤ x' ∧ x' < img.width)
    (h : img.offset x y c = img.offset x' y' c') : x = x' ∧ y = y' ∧ c = c' := by
  unfold Image.offset at h
  have hcc : c = c' := by
    have h1 := congrArg (fun t => t % (img.channels : Int)) h
    simp only [Int.add_mul_emod_self_left] at h1
    rwa [Int.emod_eq_of_lt hc.1 hc.2, Int.emod_eq_of_lt hc'.1 hc'.2] at h1
  subst hcc
  have hC : (0 : Int) < img.channels := by omega
  have h2 : x + y * (img.width : Int) = x' + y' * (img.width : Int) := by
    have h3 : (img.channels : Int) * (x + y * img.width) = img.channels * (x' + y' * img.width) := by
      omega
    exact Int.eq_of_mul_eq_mul_left (by omega) h3
  have hxx : x = x' := by
    have h1 := congrArg (fun t => t % (img.width : Int)) h2
    simp only [Int.add_mul_emod_self] at h1
    rwa [Int.emod_eq_of_lt hx.1 hx.2, Int.emod_eq_of_lt hx'.1 hx'.2] at h1
  subst hxx
  have hW : (0 : Int) < img.width := by omega
  have h4 : y * (img.width : Int) = y' * (img.width : Int) := by omega
  exact ⟨rfl, Int.eq_of_mul_eq_mul_right (by omega) h4, rfl⟩

/-- The position of a cell of the image lies in the buffer. -/
theorem Image.offset_bounds {α : Type} (img : Image α) {x y c : Int}
    (hx : 0 ≤ x ∧ x < img.width) (hy : 0 ≤ y ∧ y < img.height)
    (hc : 0 ≤ c ∧ c < img.channels) :
    0 ≤ img.offset x y c ∧ img.offset x y c < (img.data.length : Int) := by
  unfold Image.offset
  rw [img.wf]
  push_cast
  obtain ⟨hx0, hx1⟩ := hx
  obtain ⟨hy0, hy1⟩ := hy
  obtain ⟨hc0, hc1⟩ := hc
  have hyW : 0 ≤ y * (img.width : Int) := Int.mul_nonneg hy0 (by omega)
  have hP : 0 ≤ x + y * (img.width : Int) := by omega
  have hCP : 0 ≤ (img.channels : Int) * (x + y * img.width) := Int.mul_nonneg (by omega) hP
  refine ⟨by omega, ?_⟩
  have h1 : y * (img.width : Int) ≤ ((img.height : Int) - 1) * img.width :=
    Int.mul_le_mul_of_nonneg_right (by omega) (by omega)
  have h2 : x + y * (img.width : Int) + 1 ≤ (img.width : Int) * img.height := by
    have : ((img.height : Int) - 1) * img.width = (img.width : Int) * img.height - img.width := by
      ring
    omega
  have h3 : (img.channels : Int) * (x + y * img.width + 1) ≤ img.channels * ((img.width : Int) * img.height) :=
    Int.mul_le_mul_of_nonneg_left h2 (by omega)
  have h4 : (img.channels : Int) * (x + y * img.width + 1)
      = img.channels * (x + y * img.width) + img.channels := by ring
  have h5 : (img.channels : Int) * ((img.width : Int) * img.height)
      = (img.width : Int) * img.height * img.channels := by ring
  omega

/-- The position of a cell depends on the width and the channels only. -/
theorem Image.offset_congr {α : Type} {d1 d2 : Image α} (hw : d1.width = d2.width)
    (hc : d1.channels = d2.channels) (x y c : Int) : d1.offset x y c = d2.offset x y c := by
  unfold Image.offset; rw [hw, hc]

/-- A write inside the buffer returns the image with that one value
replaced. -/
theorem Image.set_ok {α : Type} (img : Image α) {x y c : Int} (v : α)
    (h : 0 ≤ img.offset x y c ∧ img.offset x y c < (img.data.length : Int)) :
    ∃ d, img.set x y c v = .ok d ∧ d.width = img.width ∧ d.height = img.height ∧
      d.channels = img.channels ∧ d.data = img.data.set (img.offset x y c).toNat v := by
  unfold Image.set
  rw [if_pos h]
  exact ⟨_, rfl, rfl, rfl, rfl, rfl⟩

/-- Executing accesses whose reads and writes are all inside the buffers
succeeds; a position no access writes keeps its value, and a position whose
writers all carry one value holds it. -/
theorem run_accesses_spec {α : Type} (src : Image α) (as : List Access) (dest : Image α)
    (hok : ∀ a ∈ as, (∃ v, src.at a.sx a.sy a.c = some v) ∧
      0 ≤ dest.offset a.dx a.dy a.c ∧ dest.offset a.dx a.dy a.c < (dest.data.length : Int)) :
    ∃ d, run_accesses src as dest = .ok d ∧ d.width = dest.width ∧ d.height = dest.height ∧
      d.channels = dest.channels ∧
      (∀ k : Nat, (∀ a ∈ as, dest.offset a.dx a.dy a.c ≠ (k : Int)) →
        d.data[k]? = dest.data[k]?) ∧
      (∀ a ∈ as, (∀ b ∈ as, dest.offset b.dx b.dy b.c = dest.offset a.dx a.dy a.c →
          src.at b.sx b.sy b.c = src.at a.sx a.sy a.c) →
        d.data[(dest.offset a.dx a.dy a.c).toNat]? = src.at a.sx a.sy a.c) := by
  induction as generalizing dest with
  | nil =>
    refine ⟨dest, rfl, rfl, rfl, rfl, fun _ _ => rfl, ?_⟩
    intro a ha
    cases ha
  | cons a0 t ih =>
    obtain ⟨⟨v0, hv0⟩, hlo, hhi⟩ := hok a0 (List.mem_cons_self _ _)
    obtain ⟨d1, hset, hw1, hh1, hc1, hdata1⟩ := dest.set_ok v0 ⟨hlo, hhi⟩
    have hoff : ∀ x y c, d1.offset x y c = dest.offset x y c := Image.offset_congr hw1 hc1
    have hlen : d1.data.length = dest.data.length := by rw [hdata1, List.length_set]
    have hok1 : ∀ a ∈ t, (∃ v, src.at a.sx a.sy a.c = some v) ∧
        0 ≤ d1.offset a.dx a.dy a.c ∧ d1.offset a.dx a.dy a.c < (d1.data.length : Int) := by
      intro a ha
      rw [hoff, hlen]
      exact hok a (List.mem_cons_of_mem _ ha)
    obtain ⟨d, hrun, hw, hh, hc, hframe, hval⟩ := ih d1 hok1
    have hstep : run_accesses src (a0 :: t) dest = run_accesses src t d1 := by
      unfold run_accesses
      rw [List.foldlM_cons]
      unfold copy_pixel
      rw [hv0]
      dsimp only
      rw [hset]
      rfl
    have hk0 : ((dest.offset a0.dx a0.dy a0.c).toNat : Int) = dest.offset a0.dx a0.dy a0.c :=
      Int.toNat_of_nonneg hlo
    have hk0lt : (dest.offset a0.dx a0.dy a0.c).toNat < dest.data.length := by omega
    refine ⟨d, by rw [hstep, hrun], by rw [hw, hw1], by rw [hh, hh1], by rw [hc, hc1], ?_, ?_⟩
    · intro k hk
      have h1 : d.data[k]? = d1.data[k]? := by
        apply hframe
        intro a ha
        rw [hoff]
        exact hk a (List.mem_cons_of_mem _ ha)
      rw [h1, hdata1]
      apply List.getElem?_set_ne
      intro heq
      apply hk a0 (List.mem_cons_self _ _)
      rw [← heq]
      exact hk0.symm
    · intro a ha hsame
      by_cases hex : ∃ b ∈ t, dest.offset b.dx b.dy b.c = dest.offset a.dx a.dy a.c
      · obtain ⟨b, hb, hba⟩ := hex
        have h1 := hval b hb (by
          intro b' hb' hb'b
          rw [hoff, hoff] at hb'b
          rw [hsame b' (List.mem_cons_of_mem _ hb') (by rw [hb'b, hba]),
            hsame b (List.mem_cons_of_mem _ hb) hba])
        rw [hoff, hba, hsame b (List.mem_cons_of_mem _ hb) hba] at h1
        exact h1
      · have ha0 : a = a0 := by
          rcases List.mem_cons.mp ha with h | h
          · exact h
          · exact absurd ⟨a, h, rfl⟩ hex
        subst ha0
        have h1 : d.data[(dest.offset a.dx a.dy a.c).toNat]? =
            d1.data[(dest.offset a.dx a.dy a.c).toNat]? := by
          apply hframe
          intro b hb hbk
          apply hex
          refine ⟨b, hb, ?_⟩
          rw [← hoff, hbk, hk0]
        rw [h1, hdata1, List.getElem?_set_self hk0lt, hv0]

/-- The accesses of `copy_into`, as a set: the source pixels that the two
loops reach and the test lets through, each with the destination pixel
`(x + border + sx, y + border + sy)` and each channel of the source. -/
theorem mem_copy_into_accesses {α : Type} (src : Image α) (x y border : Int) (a : Access) :
    a ∈ copy_into_accesses src x y border ↔
      (0 ≤ a.sx ∧ a.sx < src.width ∧ 0 ≤ a.sx + border ∧ a.sx < src.width + border) ∧
      (0 ≤ a.sy ∧ a.sy < src.height ∧ 0 ≤ a.sy + border ∧ a.sy < src.height + border) ∧
      (0 ≤ a.c ∧ a.c < src.channels) ∧
      a.dx = x + border + a.sx ∧ a.dy = y + border + a.sy := by
  unfold copy_into_accesses
  simp only [List.mem_flatMap, List.mem_range]
  constructor
  · rintro ⟨j, hj, i, hi, hmem⟩
    split at hmem
    · cases hmem
    · rename_i hcond
      simp only [List.mem_map, List.mem_range] at hmem
      obtain ⟨c, hc, rfl⟩ := hmem
      dsimp only
      omega
  · rintro ⟨⟨hx0, hx1, hx2, hx3⟩, ⟨hy0, hy1, hy2, hy3⟩, ⟨hc0, hc1⟩, hdx, hdy⟩
    refine ⟨(a.sy + border).toNat, by omega, (a.sx + border).toNat, by omega, ?_⟩
    have hi : (((a.sx + border).toNat : Nat) : Int) = a.sx + border := Int.toNat_of_nonneg hx2
    have hj : (((a.sy + border).toNat : Nat) : Int) = a.sy + border := Int.toNat_of_nonneg hy2
    rw [if_neg (by rw [hi, hj]; omega)]
    simp only [List.mem_map, List.mem_range]
    refine ⟨a.c.toNat, by omega, ?_⟩
    have hc : ((a.c.toNat : Nat) : Int) = a.c := Int.toNat_of_nonneg hc0
    rw [hi, hj, hc]
    obtain ⟨adx, ady, asx, asy, ac⟩ := a
    simp only [Access.mk.injEq]
    simp only at hdx hdy ⊢
    clear hi hj hc
    exact ⟨by omega, by omega, by omega, by omega, trivial⟩

/-- A read at a position that is not negative is the lookup in the buffer. -/
theorem Image.at_eq_getElem? {α : Type} (img : Image α) {x y c : Int}
    (h : 0 ≤ img.offset x y c) : img.at x y c = img.data[(img.offset x y c).toNat]? := by
  unfold Image.at
  rw [if_pos h]

/-- A read of a cell of the image has a value. -/
theorem Image.at_isSome {α : Type} (img : Image α) {x y c : Int}
    (hx : 0 ≤ x ∧ x < img.width) (hy : 0 ≤ y ∧ y < img.height)
    (hc : 0 ≤ c ∧ c < img.channels) : ∃ v, img.at x y c = some v := by
  obtain ⟨h0, h1⟩ := img.offset_bounds hx hy hc
  rw [img.at_eq_getElem? h0]
  have hlt : (img.offset x y c).toNat < img.data.length := by omega
  exact ⟨img.data[(img.offset x y c).toNat], List.getElem?_eq_getElem hlt⟩

/-- Under the two asserts every access of `copy_into` reads a pixel of the
source and writes a pixel position of the destination. -/
theorem access_in_bounds {α : Type} (src : Image α) (x y : Int) (dest : Image α) (border : Int)
    (hpre : copy_into_pre src x y dest border) (a : Access)
    (ha : a ∈ copy_into_accesses src x y border) :
    (0 ≤ a.sx ∧ a.sx < src.width) ∧ (0 ≤ a.sy ∧ a.sy < src.height) ∧
      (0 ≤ a.c ∧ a.c < src.channels) ∧
      (0 ≤ a.dx ∧ a.dx < dest.width) ∧ (0 ≤ a.dy ∧ a.dy < dest.height) := by
  rw [mem_copy_into_accesses] at ha
  unfold copy_into_pre at hpre
  omega

/-- What `copy_into` does when the two asserts hold and the destination has
at least the channels of the source: it returns an image of the size of the
destination, in which every access has stored the value it read and every
cell no access writes is as before. -/
theorem copy_into_spec {α : Type} (src : Image α) (x y : Int) (dest : Image α) (border : Int)
    (hpre : copy_into_pre src x y dest border) (hch : src.channels ≤ dest.channels) :
    ∃ d, copy_into src x y dest border = .ok d ∧
      d.width = dest.width ∧ d.height = dest.height ∧ d.channels = dest.channels ∧
      (∀ a ∈ copy_into_accesses src x y border, d.at a.dx a.dy a.c = src.at a.sx a.sy a.c) ∧
      (∀ u v c : Int, (0 ≤ u ∧ u < dest.width) → (0 ≤ v ∧ v < dest.height) →
        (0 ≤ c ∧ c < dest.channels) →
        (∀ a ∈ copy_into_accesses src x y border, ¬ (a.dx = u ∧ a.dy = v ∧ a.c = c)) →
        d.at u v c = dest.at u v c) ∧
      (∀ a ∈ copy_into_accesses src x y border,
        d.data[(dest.offset a.dx a.dy a.c).toNat]? = src.at a.sx a.sy a.c) ∧
      (∀ k : Nat, (∀ a ∈ copy_into_accesses src x y border, dest.offset a.dx a.dy a.c ≠ (k : Int)) →
        d.data[k]? = dest.data[k]?) := by
  have hb : ∀ a ∈ copy_into_accesses src x y border,
      (0 ≤ a.sx ∧ a.sx < src.width) ∧ (0 ≤ a.sy ∧ a.sy < src.height) ∧
      (0 ≤ a.c ∧ a.c < src.channels) ∧
      (0 ≤ a.dx ∧ a.dx < dest.width) ∧ (0 ≤ a.dy ∧ a.dy < dest.height) :=
    access_in_bounds src x y dest border hpre
  have hchz : (src.channels : Int) ≤ dest.channels := by exact_mod_cast hch
  have hok : ∀ a ∈ copy_into_accesses src x y border, (∃ v, src.at a.sx a.sy a.c = some v) ∧
      0 ≤ dest.offset a.dx a.dy a.c ∧ dest.offset a.dx a.dy a.c < (dest.data.length : Int) := by
    intro a ha
    obtain ⟨hsx, hsy, hc, hdx, hdy⟩ := hb a ha
    exact ⟨src.at_isSome hsx hsy hc, dest.offset_bounds hdx hdy ⟨hc.1, by omega⟩⟩
  obtain ⟨d, hrun, hw, hh, hc, hframe, hval⟩ :=
    run_accesses_spec src (copy_into_accesses src x y border) dest hok
  have hoff : ∀ u v c, d.offset u v c = dest.offset u v c := Image.offset_congr hw hc
  have hval' : ∀ a ∈ copy_into_accesses src x y border,
      d.data[(dest.offset a.dx a.dy a.c).toNat]? = src.at a.sx a.sy a.c := by
    intro a ha
    obtain ⟨hsx, hsy, hca, hdx, hdy⟩ := hb a ha
    apply hval a ha
    intro b hbm hoffeq
    obtain ⟨hsxb, hsyb, hcb, hdxb, hdyb⟩ := hb b hbm
    obtain ⟨e1, e2, e3⟩ := dest.offset_inj ⟨hcb.1, by omega⟩ ⟨hca.1, by omega⟩ hdxb hdx hoffeq
    have ma := (mem_copy_into_accesses src x y border a).mp ha
    have mb := (mem_copy_into_accesses src x y border b).mp hbm
    have e4 : b.sx = a.sx := by omega
    have e5 : b.sy = a.sy := by omega
    rw [e3, e4, e5]
  refine ⟨d, by rw [copy_into_eq_run, if_pos hpre, hrun], hw, hh, hc, ?_, ?_, hval', hframe⟩
  · intro a ha
    have h0 := (hok a ha).2.1
    rw [d.at_eq_getElem? (by rw [hoff]; exact h0), hoff]
    exact hval' a ha
  · intro u v c hu hv hcc hno
    obtain ⟨h0, h1⟩ := dest.offset_bounds hu hv hcc
    rw [d.at_eq_getElem? (by rw [hoff]; exact h0), dest.at_eq_getElem? h0, hoff]
    apply hframe
    intro a ha heq
    obtain ⟨hsx, hsy, hca, hdx, hdy⟩ := hb a ha
    rw [Int.toNat_of_nonneg h0] at heq
    obtain ⟨e1, e2, e3⟩ := dest.offset_inj ⟨hca.1, by omega⟩ hcc hdx hu heq
    exact hno a ha ⟨e1, e2, e3⟩

/-- The frame of `copy_into` when the destination has at least the channels of
the source: every cell `(u, v, c)` of the destination that is not
`(x + border + sx, y + border + sy, c)` for a pixel `(sx, sy)` and a channel
`c` of the source has its old value in the image returned. -/
theorem copy_into_frame_of_channels {α : Type} (src dest : Image α) (x y border : Int)
    (hpre : copy_into_pre src x y dest border) (hch : src.channels ≤ dest.channels) :
    ∃ d, copy_into src x y dest border = .ok d ∧
      ∀ u v c : Int, (0 ≤ u ∧ u < dest.width) → (0 ≤ v ∧ v < dest.height) →
        (0 ≤ c ∧ c < dest.channels) →
        ¬ (∃ sx sy : Int, (0 ≤ sx ∧ sx < src.width) ∧ (0 ≤ sy ∧ sy < src.height) ∧
            c < src.channels ∧ u = x + border + sx ∧ v = y + border + sy) →
        d.at u v c = dest.at u v c := by
  obtain ⟨d, hd, _, _, _, _, hfr, _⟩ := copy_into_spec src x y dest border hpre hch
  refine ⟨d, hd, ?_⟩
  intro u v c hu hv hc hno
  apply hfr u v c hu hv hc
  rintro a ha ⟨e1, e2, e3⟩
  have hm := (mem_copy_into_accesses src x y border a).mp ha
  apply hno
  exact ⟨a.sx, a.sy, ⟨hm.1.1, hm.1.2.1⟩, ⟨hm.2.1.1, hm.2.1.2.1⟩, by omega, by omega, by omega⟩

/-- C3, at a source with more channels than the destination. The two asserts
hold for the source of one pixel and two channels at `(0, 0)` with border 1 in
a destination of three by three pixels and one channel; the pixel `(2, 1)` lies
in the border band, outside the inner rectangle `[1, 2) x [1, 2)`; the cell
`(2, 1, 0)` is 0 before, and `copy_into` returns an image in which it is 8. -/
theorem copy_into_frame_channel_overrun :
    copy_into_pre Example.src2ch 0 0 (Image.fill 3 3 1 (0 : Nat)) 1 ∧
      (∀ sx sy : Int, 0 ≤ sx → sx < Example.src2ch.width → 0 ≤ sy →
        sy < Example.src2ch.height → ¬ ((2 : Int) = 0 + 1 + sx ∧ (1 : Int) = 0 + 1 + sy)) ∧
      (Image.fill 3 3 1 (0 : Nat)).at 2 1 0 = some 0 ∧
      ∃ d, copy_into Example.src2ch 0 0 (Image.fill 3 3 1 (0 : Nat)) 1 = .ok d ∧
        d.at 2 1 0 = some 8 := by
  refine ⟨by decide, ?_, by decide, ?_⟩
  · intro sx sy h0 h1 _ _ h
    have : (Example.src2ch.width : Int) = 1 := rfl
    omega
  · exact ⟨⟨3, 3, 1, [0, 0, 0, 0, 7, 8, 0, 0, 0], rfl⟩, rfl, by decide⟩

/-! ## The border as an offset -/

/-- A loop over `n + 2 * b` indices whose body does nothing for the first `b`
and the last `b` of them is the loop over the `n` indices between. -/
theorem flatMap_range_shift {β : Type} (n b : Nat) (G F : Nat → List β)
    (hlow : ∀ k, k < b → G k = [])
    (hmid : ∀ k, k < n → G (b + k) = F k)
    (hhigh : ∀ k, n ≤ k → G (b + k) = []) :
    (List.range (n + 2 * b)).flatMap G = (List.range n).flatMap F := by
  have e : n + 2 * b = b + (n + b) := by omega
  rw [e, List.range_add, List.flatMap_append, List.flatMap_map, List.range_add,
    List.flatMap_append, List.flatMap_map]
  have h1 : (List.range b).flatMap G = [] := by
    rw [List.flatMap_eq_nil_iff]
    intro k hk
    exact hlow k (List.mem_range.mp hk)
  have h2 : (List.range b).flatMap (fun k => G (b + (n + k))) = [] := by
    rw [List.flatMap_eq_nil_iff]
    intro k _
    exact hhigh (n + k) (by omega)
  have h3 : (List.range n).flatMap (fun k => G (b + k)) = (List.range n).flatMap F := by
    apply List.flatMap_congr
    intro k hk
    exact hmid k (List.mem_range.mp hk)
  rw [h1, h2, h3]
  simp

/-- The accesses with a border `b ≥ 0` are, in the same order, the accesses
with no border at the position moved by `b`. -/
theorem copy_into_accesses_border {α : Type} (src : Image α) (x y : Int) (b : Nat) :
    copy_into_accesses src x y (b : Int) = copy_into_accesses src (x + b) (y + b) 0 := by
  unfold copy_into_accesses
  have eh : ((src.height : Int) + 2 * (b : Int)).toNat = src.height + 2 * b := by omega
  have ew : ((src.width : Int) + 2 * (b : Int)).toNat = src.width + 2 * b := by omega
  have eh0 : ((src.height : Int) + 2 * 0).toNat = src.height := by omega
  have ew0 : ((src.width : Int) + 2 * 0).toNat = src.width := by omega
  rw [eh, ew, eh0, ew0]
  clear eh ew eh0 ew0
  apply flatMap_range_shift
  · intro j hj
    rw [List.flatMap_eq_nil_iff]
    intro i _
    dsimp only
    rw [if_pos (by omega)]
  · intro j hj
    apply flatMap_range_shift
    · intro i hi
      dsimp only
      rw [if_pos (by omega)]
    · intro i hi
      dsimp only
      split
      · exfalso; omega
      · split
        · exfalso; omega
        · apply List.map_congr_left
          intro c _
          simp only [Access.mk.injEq, and_true]
          push_cast
          omega
    · intro i hi
      dsimp only
      rw [if_pos (by omega)]
  · intro j hj
    rw [List.flatMap_eq_nil_iff]
    intro i _
    dsimp only
    rw [if_pos (by omega)]

/-! ## Two blits -/

/-- Two images of one size with one buffer are equal. -/
theorem Image.ext_of_data {α : Type} {d1 d2 : Image α} (hw : d1.width = d2.width)
    (hh : d1.height = d2.height) (hc : d1.channels = d2.channels) (hd : d1.data = d2.data) :
    d1 = d2 := by
  obtain ⟨w1, h1, c1, l1, wf1⟩ := d1
  obtain ⟨w2, h2, c2, l2, wf2⟩ := d2
  dsimp only at hw hh hc hd
  subst hw hh hc hd
  rfl

/-- The asserts read the width and the height of the destination only. -/
theorem copy_into_pre_congr {α : Type} (src : Image α) (x y : Int) {d1 d2 : Image α}
    (border : Int) (hw : d1.width = d2.width) (hh : d1.height = d2.height)
    (h : copy_into_pre src x y d2 border) : copy_into_pre src x y d1 border := by
  unfold copy_into_pre at *
  rw [hw, hh]
  exact h

/-- The source pixel `(sx, sy)`, channel `c`, is among the accesses of a blit
with a border that is not negative. -/
theorem access_of_source_pixel {α : Type} (src : Image α) (x y border : Int) (hb : 0 ≤ border)
    {sx sy c : Int} (hsx : 0 ≤ sx ∧ sx < src.width) (hsy : 0 ≤ sy ∧ sy < src.height)
    (hc : 0 ≤ c ∧ c < src.channels) :
    ({ dx := x + border + sx, dy := y + border + sy, sx := sx, sy := sy, c := c } : Access) ∈
      copy_into_accesses src x y border := by
  rw [mem_copy_into_accesses]
  dsimp only
  omega

/-- Two blits into one image, the second executed on the result of the first:
the result holds, at every position of the buffer, what the second wrote
there, else what the first wrote there, else the old value. -/
theorem copy_into_twice {α : Type} (A B : Image α) (xa ya ba xb yb bb : Int) (dest : Image α)
    (hpa : copy_into_pre A xa ya dest ba) (hpb : copy_into_pre B xb yb dest bb)
    (hca : A.channels ≤ dest.channels) (hcb : B.channels ≤ dest.channels) :
    ∃ d1 d, copy_into A xa ya dest ba = .ok d1 ∧ copy_into B xb yb d1 bb = .ok d ∧
      d.width = dest.width ∧ d.height = dest.height ∧ d.channels = dest.channels ∧
      (∀ b ∈ copy_into_accesses B xb yb bb,
        d.data[(dest.offset b.dx b.dy b.c).toNat]? = B.at b.sx b.sy b.c) ∧
      (∀ a ∈ copy_into_accesses A xa ya ba,
        (∀ b ∈ copy_into_accesses B xb yb bb,
          dest.offset b.dx b.dy b.c ≠ dest.offset a.dx a.dy a.c) →
        d.data[(dest.offset a.dx a.dy a.c).toNat]? = A.at a.sx a.sy a.c) ∧
      (∀ k : Nat, (∀ a ∈ copy_into_accesses A xa ya ba, dest.offset a.dx a.dy a.c ≠ (k : Int)) →
        (∀ b ∈ copy_into_accesses B xb yb bb, dest.offset b.dx b.dy b.c ≠ (k : Int)) →
        d.data[k]? = dest.data[k]?) := by
  obtain ⟨d1, h1, hw1, hh1, hc1, _, _, hv1, hf1⟩ := copy_into_spec A xa ya dest ba hpa hca
  obtain ⟨d, h2, hw2, hh2, hc2, _, _, hv2, hf2⟩ :=
    copy_into_spec B xb yb d1 bb (copy_into_pre_congr B xb yb bb hw1 hh1 hpb) (by rw [hc1]; exact hcb)
  have hoff : ∀ u v c, d1.offset u v c = dest.offset u v c := Image.offset_congr hw1 hc1
  refine ⟨d1, d, h1, h2, by rw [hw2, hw1], by rw [hh2, hh1], by rw [hc2, hc1], ?_, ?_, ?_⟩
  · intro b hb
    rw [← hoff]
    exact hv2 b hb
  · intro a ha hno
    have h0 : 0 ≤ dest.offset a.dx a.dy a.c := by
      obtain ⟨_, _, hca', hdx, hdy⟩ := access_in_bounds A xa ya dest ba hpa a ha
      have hcz : (A.channels : Int) ≤ dest.channels := by exact_mod_cast hca
      exact (dest.offset_bounds hdx hdy ⟨hca'.1, by omega⟩).1
    rw [hf2 _ (by
      intro b hb
      rw [hoff, Int.toNat_of_nonneg h0]
      exact hno b hb)]
    exact hv1 a ha
  · intro k hka hkb
    rw [hf2 k (by intro b hb; rw [hoff]; exact hkb b hb)]
    exact hf1 k hka

/-! ## The rectangular bin: rectangles -/

/-- Two rectangles overlap exactly when they share a pixel. -/
theorem Rect.overlaps_iff_common_pixel (a b : Rect) :
    a.overlaps b ↔ ∃ px py, a.contains px py ∧ b.contains px py := by
  unfold Rect.overlaps Rect.contains
  constructor
  · intro h
    exact ⟨max a.min_x b.min_x, max a.min_y b.min_y, by omega⟩
  · rintro ⟨px, py, h1, h2⟩
    omega

/-- Not overlapping is symmetric. -/
theorem Rect.not_overlaps_symm {a b : Rect} (h : ¬ a.overlaps b) : ¬ b.overlaps a := by
  unfold Rect.overlaps at *
  omega

/-- Rectangles within two rectangles that do not overlap do not overlap. -/
theorem Rect.not_overlaps_of_within {a b f g : Rect} (h : ¬ f.overlaps g)
    (ha : a.within f) (hb : b.within g) : ¬ a.overlaps b := by
  unfold Rect.overlaps at *
  unfold Rect.within at ha hb
  omega

/-- A rectangle lies within itself. -/
theorem Rect.within_refl (a : Rect) : a.within a := by
  unfold Rect.within
  omega

/-- Lying within is transitive. -/
theorem Rect.within_trans {a b c : Rect} (h1 : a.within b) (h2 : b.within c) : a.within c := by
  unfold Rect.within at *
  omega

/-- A rectangle within a rectangle of the square lies in the square. -/
theorem Rect.inside_of_within {a b : Rect} {size : Nat} (h1 : a.within b) (h2 : b.inside size) :
    a.inside size := by
  unfold Rect.within at h1
  unfold Rect.inside at *
  omega

/-- One placement of the bin: free regions that lie in the square and do not
overlap stay so, and the placed rectangle has the size asked for, lies within
a region that was free and overlaps no region that is free afterwards; every
region free afterwards lies within one free before. -/
theorem RectangularBin.place_spec (w h size : Nat) (free : List Rect) (p : Rect)
    (free' : List Rect)
    (hin : ∀ f ∈ free, f.inside size)
    (hpw : free.Pairwise (fun a b => ¬ a.overlaps b))
    (hpl : RectangularBin.place w h free = some (p, free')) :
    (∀ f ∈ free', f.inside size) ∧ free'.Pairwise (fun a b => ¬ a.overlaps b) ∧
      (p.width = w ∧ p.height = h) ∧
      (∃ f ∈ free, p.within f) ∧ (∀ g ∈ free', ¬ p.overlaps g) ∧
      (∀ g ∈ free', ∃ f ∈ free, g.within f) := by
  induction free generalizing p free' with
  | nil => simp [RectangularBin.place] at hpl
  | cons r rs ih =>
    rw [List.pairwise_cons] at hpw
    obtain ⟨hr, hrs⟩ := hpw
    have hrin := hin r (List.mem_cons_self _ _)
    unfold RectangularBin.place at hpl
    split at hpl
    · rename_i hfit
      simp only [Option.some.injEq, Prod.mk.injEq] at hpl
      obtain ⟨rfl, rfl⟩ := hpl
      have hw1 : Rect.within ⟨r.min_x + w, r.min_y, r.width - w, h⟩ r := by
        unfold Rect.within; dsimp only; omega
      have hw2 : Rect.within ⟨r.min_x, r.min_y + h, r.width, r.height - h⟩ r := by
        unfold Rect.within; dsimp only; omega
      have hwp : Rect.within ⟨r.min_x, r.min_y, w, h⟩ r := by
        unfold Rect.within; dsimp only; omega
      refine ⟨?_, ?_, ⟨rfl, rfl⟩, ⟨r, List.mem_cons_self _ _, hwp⟩, ?_, ?_⟩
      · intro f hf
        rcases List.mem_cons.mp hf with rfl | hf
        · exact Rect.inside_of_within hw1 hrin
        · rcases List.mem_cons.mp hf with rfl | hf
          · exact Rect.inside_of_within hw2 hrin
          · exact hin f (List.mem_cons_of_mem _ hf)
      · rw [List.pairwise_cons, List.pairwise_cons]
        refine ⟨?_, ?_, hrs⟩
        · intro g hg
          rcases List.mem_cons.mp hg with rfl | hg
          · unfold Rect.overlaps; dsimp only; omega
          · exact Rect.not_overlaps_of_within (hr g hg) hw1 (Rect.within_refl g)
        · intro g hg
          exact Rect.not_overlaps_of_within (hr g hg) hw2 (Rect.within_refl g)
      · intro g hg
        rcases List.mem_cons.mp hg with rfl | hg
        · unfold Rect.overlaps; dsimp only; omega
        · rcases List.mem_cons.mp hg with rfl | hg
          · unfold Rect.overlaps; dsimp only; omega
          · exact Rect.not_overlaps_of_within (hr g hg) hwp (Rect.within_refl g)
      · intro g hg
        rcases List.mem_cons.mp hg with rfl | hg
        · exact ⟨r, List.mem_cons_self _ _, hw1⟩
        · rcases List.mem_cons.mp hg with rfl | hg
          · exact ⟨r, List.mem_cons_self _ _, hw2⟩
          · exact ⟨g, List.mem_cons_of_mem _ hg, Rect.within_refl g⟩
    · split at hpl
      · cases hpl
      · rename_i q rs' hrec
        simp only [Option.some.injEq, Prod.mk.injEq] at hpl
        obtain ⟨rfl, rfl⟩ := hpl
        obtain ⟨hin', hpw', hsz, ⟨f, hf, hqf⟩, hno, hsub⟩ :=
          ih q rs' (fun f hf => hin f (List.mem_cons_of_mem _ hf)) hrs hrec
        refine ⟨?_, ?_, hsz, ⟨f, List.mem_cons_of_mem _ hf, hqf⟩, ?_, ?_⟩
        · intro g hg
          rcases List.mem_cons.mp hg with rfl | hg
          · exact hrin
          · exact hin' g hg
        · rw [List.pairwise_cons]
          refine ⟨?_, hpw'⟩
          intro g hg
          obtain ⟨f', hf', hgf'⟩ := hsub g hg
          exact Rect.not_overlaps_of_within (hr f' hf') (Rect.within_refl _) hgf'
        · intro g hg
          rcases List.mem_cons.mp hg with rfl | hg
          · exact Rect.not_overlaps_symm
              (Rect.not_overlaps_of_within (hr f hf) (Rect.within_refl _) hqf)
          · exact hno g hg
        · intro g hg
          rcases List.mem_cons.mp hg with rfl | hg
          · exact ⟨g, List.mem_cons_self _ _, Rect.within_refl g⟩
          · obtain ⟨f', hf', hgf'⟩ := hsub g hg
            exact ⟨f', List.mem_cons_of_mem _ hf', hgf'⟩

/-! ## The atlas: `insert` and the bin -/

/-- A successful `insert` of the bin is a placement in its free list; the size
of the bin stays. -/
theorem RectangularBin.insert_spec (bin : RectangularBin) (w h : Nat) (r : Rect)
    (bin' : RectangularBin) (hins : bin.insert w h = some (r, bin')) :
    RectangularBin.place w h bin.free = some (r, bin'.free) ∧ bin'.size = bin.size := by
  unfold RectangularBin.insert at hins
  split at hins
  · cases hins
  · split at hins
    · cases hins
    · rename_i q free hpl
      simp only [Option.some.injEq, Prod.mk.injEq] at hins
      obtain ⟨rfl, rfl⟩ := hins
      exact ⟨hpl, rfl⟩

/-- The two ways `insert` returns: the bin had no room and the atlas is the
one given, or the bin placed the rectangle and the new atlas holds the new
bin. -/
theorem TextureAtlas.insert_rect_cases (atlas : TextureAtlas) (p : TexturePatch) (mean max : Rat)
    (o : Option Rect) (atlas' : TextureAtlas)
    (hins : atlas.insert_rect p mean max = .ok (o, atlas')) :
    (o = none ∧ atlas' = atlas ∧
      atlas.bin.insert (p.image.width + 2 * atlas.padding)
        (p.image.height + 2 * atlas.padding) = none) ∨
    (∃ r bin, o = some r ∧
      atlas.bin.insert (p.image.width + 2 * atlas.padding)
        (p.image.height + 2 * atlas.padding) = some (r, bin) ∧ atlas'.bin = bin) := by
  unfold TextureAtlas.insert_rect at hins
  split at hins
  · rename_i hbin
    simp only [Except.ok.injEq, Prod.mk.injEq] at hins
    obtain ⟨rfl, rfl⟩ := hins
    exact Or.inl ⟨rfl, rfl, hbin⟩
  · rename_i rect bin hbin
    split at hins
    · cases hins
    · split at hins
      · cases hins
      · simp only [Except.ok.injEq, Prod.mk.injEq] at hins
        obtain ⟨rfl, rfl⟩ := hins
        exact Or.inr ⟨rect, bin, rfl, hbin, rfl⟩

/-- The placements of a sequence of `insert` calls from an atlas whose free
regions lie in the square and do not overlap: they do not overlap one another,
lie in the square, and each lies within a region that was free at the
start. -/
theorem TextureAtlas.placements_inv (ps : List (TexturePatch × Rat × Rat)) (atlas : TextureAtlas)
    (hin : ∀ f ∈ atlas.bin.free, f.inside atlas.bin.size)
    (hpw : atlas.bin.free.Pairwise (fun a b => ¬ a.overlaps b)) :
    (atlas.placements ps).Pairwise (fun a b => ¬ a.overlaps b) ∧
      (∀ r ∈ atlas.placements ps, r.inside atlas.bin.size) ∧
      (∀ r ∈ atlas.placements ps, ∃ f ∈ atlas.bin.free, r.within f) := by
  induction ps generalizing atlas with
  | nil =>
    unfold TextureAtlas.placements
    exact ⟨List.Pairwise.nil, fun _ h => absurd h (List.not_mem_nil _),
      fun _ h => absurd h (List.not_mem_nil _)⟩
  | cons q ps ih =>
    obtain ⟨p, mean, max⟩ := q
    unfold TextureAtlas.placements
    split
    · exact ⟨List.Pairwise.nil, fun _ h => absurd h (List.not_mem_nil _),
      fun _ h => absurd h (List.not_mem_nil _)⟩
    · rename_i atlas' hins
      rcases TextureAtlas.insert_rect_cases atlas p mean max none atlas' hins with
        ⟨_, rfl, _⟩ | ⟨r, bin, ho, _, _⟩
      · exact ih atlas' hin hpw
      · cases ho
    · rename_i r atlas' hins
      rcases TextureAtlas.insert_rect_cases atlas p mean max (some r) atlas' hins with
        ⟨ho, _, _⟩ | ⟨r', bin, ho, hbin, hbin'⟩
      · cases ho
      · simp only [Option.some.injEq] at ho
        subst ho
        obtain ⟨hpl, hsize⟩ := RectangularBin.insert_spec _ _ _ _ _ hbin
        obtain ⟨hin', hpw', _, ⟨f, hf, hrf⟩, hno, hsub⟩ :=
          RectangularBin.place_spec _ _ atlas.bin.size atlas.bin.free r bin.free hin hpw hpl
        rw [← hbin'] at hin' hpw' hno hsub hsize
        obtain ⟨h1, h2, h3⟩ := ih atlas' (by rw [hsize]; exact hin') hpw'
        rw [hsize] at h2
        refine ⟨?_, ?_, ?_⟩
        · rw [List.pairwise_cons]
          refine ⟨?_, h1⟩
          intro r' hr'
          obtain ⟨g, hg, hr'g⟩ := h3 r' hr'
          exact Rect.not_overlaps_of_within (hno g hg) (Rect.within_refl _) hr'g
        · intro r' hr'
          rcases List.mem_cons.mp hr' with rfl | hr'
          · exact Rect.inside_of_within hrf (hin f hf)
          · exact h2 r' hr'
        · intro r' hr'
          rcases List.mem_cons.mp hr' with rfl | hr'
          · exact ⟨f, hf, hrf⟩
          · obtain ⟨g, hg, hr'g⟩ := h3 r' hr'
            obtain ⟨f', hf', hgf'⟩ := hsub g hg
            exact ⟨f', hf', Rect.within_trans hr'g hgf'⟩

/-! ## Properties of `copy_into` -/

/-- C1. Every source pixel is found at the padded offset: when `border ≥ 0`,
the two asserts hold and the source has at most the channels of the
destination, `copy_into(src, x, y, dest, border)` returns an image `d` with
`d(x + border + sx, y + border + sy, c) = src(sx, sy, c)` for every pixel
`(sx, sy)` and channel `c` of the source. -/
theorem copy_into_postcondition {α : Type} (src dest : Image α) (x y border : Int)
    (hb : border ≥ 0) (hpre : copy_into_pre src x y dest border)
    (hch : src.channels ≤ dest.channels) :
    ∃ d, copy_into src x y dest border = .ok d ∧
      ∀ sx sy c : Int, 0 ≤ sx → sx < src.width → 0 ≤ sy → sy < src.height →
        0 ≤ c → c < src.channels →
        ∃ v, src.at sx sy c = some v ∧ d.at (x + border + sx) (y + border + sy) c = some v := by
  obtain ⟨d, hd, _, _, _, hval, _⟩ := copy_into_spec src x y dest border hpre hch
  refine ⟨d, hd, ?_⟩
  intro sx sy c hsx0 hsx1 hsy0 hsy1 hc0 hc1
  obtain ⟨v, hv⟩ := src.at_isSome ⟨hsx0, hsx1⟩ ⟨hsy0, hsy1⟩ ⟨hc0, hc1⟩
  have h := hval _ (access_of_source_pixel src x y border hb ⟨hsx0, hsx1⟩ ⟨hsy0, hsy1⟩ ⟨hc0, hc1⟩)
  dsimp only at h
  exact ⟨v, hv, by rw [h, hv]⟩

/-- C1, at the input of the specification: a source of one pixel copied at
`(0, 0)` with border 2 into a destination of 256 by 256 is read back at
`(2, 2)`. -/
theorem copy_into_postcondition_witness :
    ∃ d, copy_into Example.src1 0 0 (Image.fill 256 256 1 (0 : Nat)) 2 = .ok d ∧
      d.at 2 2 0 = some 7 := by
  obtain ⟨d, hd, h⟩ := copy_into_postcondition Example.src1 (Image.fill 256 256 1 (0 : Nat))
    0 0 2 (by decide) (by decide) (by decide)
  obtain ⟨v, hv, hdv⟩ := h 0 0 0 (by decide) (by decide) (by decide) (by decide) (by decide)
    (by decide)
  have h7 : Example.src1.at 0 0 0 = some 7 := by decide
  rw [h7] at hv
  refine ⟨d, hd, ?_⟩
  rw [← hv] at hdv
  exact hdv

/-- C4. Spatial safety, for every integer border: under the two asserts,
`copy_into` executes exactly the recorded accesses, and every one of them reads
a pixel and a channel of the source (the read has a value) and writes the pixel
position `(x + i, y + j) = (x + border + sx, y + border + sy)`, which is a
pixel position of the destination. -/
theorem copy_into_spatial_safety {α : Type} (src dest : Image α) (x y border : Int)
    (hpre : copy_into_pre src x y dest border) :
    copy_into src x y dest border =
        run_accesses src (copy_into_accesses src x y border) dest ∧
      ∀ a ∈ copy_into_accesses src x y border,
        ((0 ≤ a.sx ∧ a.sx < src.width) ∧ (0 ≤ a.sy ∧ a.sy < src.height) ∧
          (0 ≤ a.c ∧ a.c < src.channels)) ∧
        (∃ v, src.at a.sx a.sy a.c = some v) ∧
        (a.dx = x + border + a.sx ∧ a.dy = y + border + a.sy) ∧
        ((0 ≤ a.dx ∧ a.dx < dest.width) ∧ (0 ≤ a.dy ∧ a.dy < dest.height)) := by
  refine ⟨by rw [copy_into_eq_run, if_pos hpre], ?_⟩
  intro a ha
  obtain ⟨hsx, hsy, hc, hdx, hdy⟩ := access_in_bounds src x y dest border hpre a ha
  have hm := (mem_copy_into_accesses src x y border a).mp ha
  exact ⟨⟨hsx, hsy, hc⟩, src.at_isSome hsx hsy hc, ⟨hm.2.2.2.1, hm.2.2.2.2⟩, hdx, hdy⟩

/-- C4, at a negative border: a source of three by three pixels copied at
`(1, 0)` with border -1 into a destination of two pixels by one; the one
access reads the centre pixel of the source. -/
theorem copy_into_spatial_safety_witness :
    copy_into_accesses Example.src3x3 1 0 (-1) = [{ dx := 1, dy := 0, sx := 1, sy := 1, c := 0 }] ∧
      (copy_into Example.src3x3 1 0 Example.dest2x1 (-1) =
          run_accesses Example.src3x3 (copy_into_accesses Example.src3x3 1 0 (-1))
            Example.dest2x1 ∧
        ∀ a ∈ copy_into_accesses Example.src3x3 1 0 (-1),
          ((0 ≤ a.sx ∧ a.sx < Example.src3x3.width) ∧ (0 ≤ a.sy ∧ a.sy < Example.src3x3.height) ∧
            (0 ≤ a.c ∧ a.c < Example.src3x3.channels)) ∧
          (∃ v, Example.src3x3.at a.sx a.sy a.c = some v) ∧
          (a.dx = 1 + -1 + a.sx ∧ a.dy = 0 + -1 + a.sy) ∧
          ((0 ≤ a.dx ∧ a.dx < Example.dest2x1.width) ∧
            (0 ≤ a.dy ∧ a.dy < Example.dest2x1.height))) :=
  ⟨by decide, copy_into_spatial_safety Example.src3x3 Example.dest2x1 1 0 (-1) (by decide)⟩

/-- C8. A source wider or higher than the destination less twice the border is
never placed: at every position with `x ≥ 0` and `y ≥ 0` the asserted size
precondition is false, and `copy_into` stops at the assert. -/
theorem copy_into_rejects_oversize {α : Type} (src dest : Image α) (x y border : Int)
    (hbig : (src.width : Int) > (dest.width : Int) - 2 * border ∨
      (src.height : Int) > (dest.height : Int) - 2 * border)
    (hx : x ≥ 0) (hy : y ≥ 0) :
    ¬ copy_into_pre src x y dest border ∧
      copy_into src x y dest border = .error .assertion := by
  have hn : ¬ copy_into_pre src x y dest border := by
    unfold copy_into_pre
    omega
  refine ⟨hn, ?_⟩
  unfold copy_into
  rw [if_neg hn]

/-- C8, at a source of three by three pixels and a destination two pixels
wide. -/
theorem copy_into_rejects_oversize_witness :
    ¬ copy_into_pre Example.src3x3 0 0 Example.dest2x1 0 ∧
      copy_into Example.src3x3 0 0 Example.dest2x1 0 = .error .assertion :=
  copy_into_rejects_oversize Example.src3x3 Example.dest2x1 0 0 0 (by decide) (by decide)
    (by decide)

/-- C9. The border is only an offset: when `border ≥ 0` and the two asserts
hold, `copy_into(src, x, y, dest, border)` and
`copy_into(src, x + border, y + border, dest, 0)` have the same outcome, the
asserts of the second call hold, and the outcome is an image when the source
has at most the channels of the destination. -/
theorem copy_into_border_is_offset {α : Type} (src dest : Image α) (x y border : Int)
    (hb : border ≥ 0) (hpre : copy_into_pre src x y dest border) :
    copy_into src x y dest border = copy_into src (x + border) (y + border) dest 0 ∧
      copy_into_pre src (x + border) (y + border) dest 0 ∧
      (src.channels ≤ dest.channels → ∃ d, copy_into src x y dest border = .ok d) := by
  have hpre0 : copy_into_pre src (x + border) (y + border) dest 0 := by
    unfold copy_into_pre at *
    omega
  refine ⟨?_, hpre0, ?_⟩
  · rw [copy_into_eq_run, copy_into_eq_run, if_pos hpre, if_pos hpre0]
    obtain ⟨b, rfl⟩ := Int.eq_ofNat_of_zero_le hb
    rw [copy_into_accesses_border]
  · intro hch
    obtain ⟨d, hd, _⟩ := copy_into_spec src x y dest border hpre hch
    exact ⟨d, hd⟩

/-- C9, at a source of one pixel copied at `(0, 0)` with border 2 into a
destination of 256 by 256. -/
theorem copy_into_border_is_offset_witness :
    copy_into Example.src1 0 0 (Image.fill 256 256 1 (0 : Nat)) 2 =
        copy_into Example.src1 (0 + 2) (0 + 2) (Image.fill 256 256 1 (0 : Nat)) 0 ∧
      copy_into_pre Example.src1 (0 + 2) (0 + 2) (Image.fill 256 256 1 (0 : Nat)) 0 ∧
      (Example.src1.channels ≤ (Image.fill 256 256 1 (0 : Nat)).channels →
        ∃ d, copy_into Example.src1 0 0 (Image.fill 256 256 1 (0 : Nat)) 2 = .ok d) :=
  copy_into_border_is_offset Example.src1 (Image.fill 256 256 1 (0 : Nat)) 0 0 2 (by decide)
    (by decide)

/-- C7, at a source with more channels than the destination. The two asserts
hold for the source of one pixel and three channels at `(0, 0)` in the
destination of one pixel and one channel; `copy_into` writes with the channel
index 1, which is no channel of the destination, the write is outside the pixel
buffer, and the run stops there. -/
theorem copy_into_channel_overrun :
    copy_into_pre Example.src3ch 0 0 Example.dest1x1 0 ∧
      ({ dx := 0, dy := 0, sx := 0, sy := 0, c := 1 } : Access) ∈
        copy_into_accesses Example.src3ch 0 0 0 ∧
      ¬ ((1 : Int) < Example.dest1x1.channels) ∧
      ¬ (Example.dest1x1.offset 0 0 1 < (Example.dest1x1.data.length : Int)) ∧
      copy_into Example.src3ch 0 0 Example.dest1x1 0 = .error .outOfBounds := by
  refine ⟨by decide, by decide, by decide, by decide, rfl⟩

/-- C10 as stated fails at two inputs. With a negative border: the source of
one pixel placed at `(1, 1)` with border -1 has the inner rectangle
`[0, 1) x [0, 1)`, the second source placed at `(1, 0)` has `[1, 2) x [0, 1)`,
the asserts hold, both orders give the same image, and the pixel of the first
source is not at `(0, 0)`. With more channels than the destination: the source
of one pixel and two channels at `(0, 0)` and the source of one pixel at
`(1, 0)`, in a destination of two pixels and one channel, give two different
images in the two orders. -/
theorem copy_into_disjoint_commute_counterexample :
    (copy_into_pre Example.src1 1 1 Example.dest2x1 (-1) ∧
      copy_into_pre Example.src9 1 0 Example.dest2x1 0 ∧
      (∀ u v : Int,
        ¬ ((1 + -1 ≤ u ∧ u < 1 + -1 + (Example.src1.width : Int) ∧
            1 + -1 ≤ v ∧ v < 1 + -1 + (Example.src1.height : Int)) ∧
          (1 + 0 ≤ u ∧ u < 1 + 0 + (Example.src9.width : Int) ∧
            0 + 0 ≤ v ∧ v < 0 + 0 + (Example.src9.height : Int)))) ∧
      ∃ d, (copy_into Example.src1 1 1 Example.dest2x1 (-1) >>= fun d1 =>
            copy_into Example.src9 1 0 d1 0) = .ok d ∧
        (copy_into Example.src9 1 0 Example.dest2x1 0 >>= fun d1 =>
            copy_into Example.src1 1 1 d1 (-1)) = .ok d ∧
        Example.src1.at 0 0 0 = some 7 ∧ d.at (1 + -1 + 0) (1 + -1 + 0) 0 = some 0) ∧
    (copy_into_pre Example.src2ch 0 0 Example.dest2x1 0 ∧
      copy_into_pre Example.src9 1 0 Example.dest2x1 0 ∧
      (∀ u v : Int,
        ¬ ((0 + 0 ≤ u ∧ u < 0 + 0 + (Example.src2ch.width : Int) ∧
            0 + 0 ≤ v ∧ v < 0 + 0 + (Example.src2ch.height : Int)) ∧
          (1 + 0 ≤ u ∧ u < 1 + 0 + (Example.src9.width : Int) ∧
            0 + 0 ≤ v ∧ v < 0 + 0 + (Example.src9.height : Int)))) ∧
      ∃ d1 d2, (copy_into Example.src2ch 0 0 Example.dest2x1 0 >>= fun d =>
            copy_into Example.src9 1 0 d 0) = .ok d1 ∧
        (copy_into Example.src9 1 0 Example.dest2x1 0 >>= fun d =>
            copy_into Example.src2ch 0 0 d 0) = .ok d2 ∧
        d1.data = [7, 9] ∧ d2.data = [7, 8] ∧ d1 ≠ d2) := by
  refine ⟨⟨by decide, by decide, ?_, ?_⟩, ⟨by decide, by decide, ?_, ?_⟩⟩
  · intro u v h
    have h1 : (Example.src1.width : Int) = 1 := rfl
    have h2 : (Example.src9.width : Int) = 1 := rfl
    omega
  · exact ⟨{ width := 2, height := 1, channels := 1, data := [0, 9], wf := rfl }, rfl, rfl,
      by decide, by decide⟩
  · intro u v h
    have h1 : (Example.src2ch.width : Int) = 1 := rfl
    have h2 : (Example.src9.width : Int) = 1 := rfl
    omega
  · exact ⟨{ width := 2, height := 1, channels := 1, data := [7, 9], wf := rfl },
      { width := 2, height := 1, channels := 1, data := [7, 8], wf := rfl }, rfl, rfl, rfl, rfl,
      by decide⟩

/-- Accesses of two blits whose inner rectangles share no pixel position write
different positions of the buffer. -/
theorem offsets_disjoint {α : Type} (A B dest : Image α) (xa ya ba xb yb bb : Int)
    (hpa : copy_into_pre A xa ya dest ba) (hpb : copy_into_pre B xb yb dest bb)
    (hca : A.channels ≤ dest.channels) (hcb : B.channels ≤ dest.channels)
    (hdisj : ∀ u v : Int,
      ¬ ((xa + ba ≤ u ∧ u < xa + ba + (A.width : Int) ∧
          ya + ba ≤ v ∧ v < ya + ba + (A.height : Int)) ∧
        (xb + bb ≤ u ∧ u < xb + bb + (B.width : Int) ∧
          yb + bb ≤ v ∧ v < yb + bb + (B.height : Int))))
    (a : Access) (ha : a ∈ copy_into_accesses A xa ya ba)
    (b : Access) (hb : b ∈ copy_into_accesses B xb yb bb) :
    dest.offset a.dx a.dy a.c ≠ dest.offset b.dx b.dy b.c := by
  intro heq
  obtain ⟨_, _, hac, hadx, hady⟩ := access_in_bounds A xa ya dest ba hpa a ha
  obtain ⟨_, _, hbc, hbdx, hbdy⟩ := access_in_bounds B xb yb dest bb hpb b hb
  have hcaz : (A.channels : Int) ≤ dest.channels := by exact_mod_cast hca
  have hcbz : (B.channels : Int) ≤ dest.channels := by exact_mod_cast hcb
  obtain ⟨e1, e2, _⟩ := dest.offset_inj ⟨hac.1, by omega⟩ ⟨hbc.1, by omega⟩ hadx hbdx heq
  have ma := (mem_copy_into_accesses A xa ya ba a).mp ha
  have mb := (mem_copy_into_accesses B xb yb bb b).mp hb
  apply hdisj a.dx a.dy
  omega

/-- C10, amended. Two blits with borders that are not negative, each
satisfying the asserts, from sources with at most the channels of the
destination, whose inner rectangles share no pixel position: the blit of `A`
followed by the blit of `B` and the blit of `B` followed by the blit of `A`
both return, they return the same image, and that image holds every pixel of
`A` and every pixel of `B` at its padded offset. -/
theorem copy_into_disjoint_commute {α : Type} (A B dest : Image α) (xa ya ba xb yb bb : Int)
    (hba : ba ≥ 0) (hbb : bb ≥ 0)
    (hpa : copy_into_pre A xa ya dest ba) (hpb : copy_into_pre B xb yb dest bb)
    (hca : A.channels ≤ dest.channels) (hcb : B.channels ≤ dest.channels)
    (hdisj : ∀ u v : Int,
      ¬ ((xa + ba ≤ u ∧ u < xa + ba + (A.width : Int) ∧
          ya + ba ≤ v ∧ v < ya + ba + (A.height : Int)) ∧
        (xb + bb ≤ u ∧ u < xb + bb + (B.width : Int) ∧
          yb + bb ≤ v ∧ v < yb + bb + (B.height : Int)))) :
    ∃ dA dB d,
      copy_into A xa ya dest ba = .ok dA ∧ copy_into B xb yb dA bb = .ok d ∧
      copy_into B xb yb dest bb = .ok dB ∧ copy_into A xa ya dB ba = .ok d ∧
      (∀ sx sy c : Int, 0 ≤ sx → sx < A.width → 0 ≤ sy → sy < A.height →
        0 ≤ c → c < A.channels →
        ∃ v, A.at sx sy c = some v ∧ d.at (xa + ba + sx) (ya + ba + sy) c = some v) ∧
      (∀ sx sy c : Int, 0 ≤ sx → sx < B.width → 0 ≤ sy → sy < B.height →
        0 ≤ c → c < B.channels →
        ∃ v, B.at sx sy c = some v ∧ d.at (xb + bb + sx) (yb + bb + sy) c = some v) := by
  have hne := offsets_disjoint A B dest xa ya ba xb yb bb hpa hpb hca hcb hdisj
  obtain ⟨dA, d, h1, h2, hw, hh, hc, hvB, hvA, hfr⟩ :=
    copy_into_twice A B xa ya ba xb yb bb dest hpa hpb hca hcb
  obtain ⟨dB, d', h3, h4, hw', hh', hc', hvA', hvB', hfr'⟩ :=
    copy_into_twice B A xb yb bb xa ya ba dest hpb hpa hcb hca
  have hcaz : (A.channels : Int) ≤ dest.channels := by exact_mod_cast hca
  have hcbz : (B.channels : Int) ≤ dest.channels := by exact_mod_cast hcb
  have hposA : ∀ a ∈ copy_into_accesses A xa ya ba, 0 ≤ dest.offset a.dx a.dy a.c := by
    intro a ha
    obtain ⟨_, _, hac, hadx, hady⟩ := access_in_bounds A xa ya dest ba hpa a ha
    exact (dest.offset_bounds hadx hady ⟨hac.1, by omega⟩).1
  have hposB : ∀ b ∈ copy_into_accesses B xb yb bb, 0 ≤ dest.offset b.dx b.dy b.c := by
    intro b hb
    obtain ⟨_, _, hbc, hbdx, hbdy⟩ := access_in_bounds B xb yb dest bb hpb b hb
    exact (dest.offset_bounds hbdx hbdy ⟨hbc.1, by omega⟩).1
  have hdata : d'.data = d.data := by
    apply List.ext_getElem?
    intro k
    by_cases hB : ∃ b ∈ copy_into_accesses B xb yb bb, dest.offset b.dx b.dy b.c = (k : Int)
    · obtain ⟨b, hb, hbk⟩ := hB
      have hk : (dest.offset b.dx b.dy b.c).toNat = k := by omega
      have e1 := hvB b hb
      have e2 := hvB' b hb (fun a ha => hne a ha b hb)
      rw [hk] at e1 e2
      rw [e1, e2]
    · by_cases hA : ∃ a ∈ copy_into_accesses A xa ya ba, dest.offset a.dx a.dy a.c = (k : Int)
      · obtain ⟨a, ha, hak⟩ := hA
        have hk : (dest.offset a.dx a.dy a.c).toNat = k := by omega
        have e1 := hvA a ha (fun b hb heq => hne a ha b hb heq.symm)
        have e2 := hvA' a ha
        rw [hk] at e1 e2
        rw [e1, e2]
      · have nA : ∀ a ∈ copy_into_accesses A xa ya ba, dest.offset a.dx a.dy a.c ≠ (k : Int) :=
          fun a ha heq => hA ⟨a, ha, heq⟩
        have nB : ∀ b ∈ copy_into_accesses B xb yb bb, dest.offset b.dx b.dy b.c ≠ (k : Int) :=
          fun b hb heq => hB ⟨b, hb, heq⟩
        rw [hfr k nA nB, hfr' k nB nA]
  have hdd : d' = d :=
    Image.ext_of_data (by rw [hw', hw]) (by rw [hh', hh]) (by rw [hc', hc]) hdata
  subst hdd
  have hoff : ∀ u v c, d'.offset u v c = dest.offset u v c := Image.offset_congr hw hc
  refine ⟨dA, dB, d', h1, h2, h3, h4, ?_, ?_⟩
  · intro sx sy c hsx0 hsx1 hsy0 hsy1 hc0 hc1
    obtain ⟨v, hv⟩ := A.at_isSome ⟨hsx0, hsx1⟩ ⟨hsy0, hsy1⟩ ⟨hc0, hc1⟩
    have hm := access_of_source_pixel A xa ya ba hba ⟨hsx0, hsx1⟩ ⟨hsy0, hsy1⟩ ⟨hc0, hc1⟩
    have e := hvA' _ hm
    have hp := hposA _ hm
    dsimp only at e hp
    refine ⟨v, hv, ?_⟩
    rw [d'.at_eq_getElem? (by rw [hoff]; exact hp), hoff, e, hv]
  · intro sx sy c hsx0 hsx1 hsy0 hsy1 hc0 hc1
    obtain ⟨v, hv⟩ := B.at_isSome ⟨hsx0, hsx1⟩ ⟨hsy0, hsy1⟩ ⟨hc0, hc1⟩
    have hm := access_of_source_pixel B xb yb bb hbb ⟨hsx0, hsx1⟩ ⟨hsy0, hsy1⟩ ⟨hc0, hc1⟩
    have e := hvB _ hm
    have hp := hposB _ hm
    dsimp only at e hp
    refine ⟨v, hv, ?_⟩
    rw [d'.at_eq_getElem? (by rw [hoff]; exact hp), hoff, e, hv]

/-- C10, at two sources of one pixel placed side by side, at `(0, 0)` and at
`(1, 0)`, in a destination of two pixels. -/
theorem copy_into_disjoint_commute_witness :
    ∃ dA dB d,
      copy_into Example.src1 0 0 Example.dest2x1 0 = .ok dA ∧
      copy_into Example.src9 1 0 dA 0 = .ok d ∧
      copy_into Example.src9 1 0 Example.dest2x1 0 = .ok dB ∧
      copy_into Example.src1 0 0 dB 0 = .ok d ∧
      (∀ sx sy c : Int, 0 ≤ sx → sx < Example.src1.width → 0 ≤ sy → sy < Example.src1.height →
        0 ≤ c → c < Example.src1.channels →
        ∃ v, Example.src1.at sx sy c = some v ∧ d.at (0 + 0 + sx) (0 + 0 + sy) c = some v) ∧
      (∀ sx sy c : Int, 0 ≤ sx → sx < Example.src9.width → 0 ≤ sy → sy < Example.src9.height →
        0 ≤ c → c < Example.src9.channels →
        ∃ v, Example.src9.at sx sy c = some v ∧ d.at (1 + 0 + sx) (0 + 0 + sy) c = some v) :=
  copy_into_disjoint_commute Example.src1 Example.src9 Example.dest2x1 0 0 0 1 0 0
    (by decide) (by decide) (by decide) (by decide) (by decide) (by decide)
    (by
      intro u v h
      have h1 : (Example.src1.width : Int) = 1 := rfl
      have h2 : (Example.src9.width : Int) = 1 := rfl
      omega)

/-! ## Properties of the atlas -/

/-- C2. The method `get_image` fails with "Texture atlas not finalized" exactly
when the flag `finalized` is false; when the flag is true it returns the stored
image; in both cases the atlas is unchanged, so that a second call has the
outcome of the first. -/
theorem get_image_gated_by_finalized (atlas : TextureAtlas) :
    (atlas.get_image.1 = .error "Texture atlas not finalized" ↔ atlas.finalized = false) ∧
      (atlas.finalized = true → atlas.get_image.1 = .ok atlas.image) ∧
      atlas.get_image.2 = atlas ∧
      atlas.get_image.2.get_image = atlas.get_image := by
  unfold TextureAtlas.get_image
  cases hf : atlas.finalized
  · simp [hf]
  · simp [hf]

/-- C5. The padded rectangles of the accepted placements of every sequence of
`insert` calls on a new atlas do not overlap one another, and each lies in
`[0, size) x [0, size)`. -/
theorem placements_disjoint_and_inside (size padding channels : Nat)
    (ps : List (TexturePatch × Rat × Rat)) :
    ((TextureAtlas.new size padding channels).placements ps).Pairwise
        (fun a b => ¬ a.overlaps b) ∧
      ∀ r ∈ (TextureAtlas.new size padding channels).placements ps, r.inside size := by
  have hin : ∀ f ∈ (TextureAtlas.new size padding channels).bin.free,
      f.inside (TextureAtlas.new size padding channels).bin.size := by
    intro f hf
    simp only [TextureAtlas.new, RectangularBin.create, List.mem_singleton] at hf
    subst hf
    simp [Rect.inside, TextureAtlas.new, RectangularBin.create]
  have hpw : (TextureAtlas.new size padding channels).bin.free.Pairwise
      (fun a b => ¬ a.overlaps b) := by
    simp [TextureAtlas.new, RectangularBin.create]
  obtain ⟨h1, h2, _⟩ := TextureAtlas.placements_inv ps _ hin hpw
  exact ⟨h1, h2⟩

/-- The placements of four patches in an atlas of size 8 with padding 1: the
patches of one pixel take padded rectangles of 3 by 3, the first patch of three
by three pixels one of 5 by 5, and the second has no room. -/
theorem placements_example :
    (TextureAtlas.new 8 1 1).placements
        [(Example.patch1x1, 0, 0), (Example.patch3x3, 0, 0), (Example.patch1x1, 0, 0),
          (Example.patch3x3, 0, 0)] =
      [{ min_x := 0, min_y := 0, width := 3, height := 3 },
        { min_x := 0, min_y := 3, width := 5, height := 5 },
        { min_x := 3, min_y := 0, width := 3, height := 3 }] := by
  decide

/-- The coordinates of the face of the patch of one pixel placed at `(0, 0)`
with padding 1 in an atlas of size 4. -/
theorem atlas1_texcoords :
    ([] : List (Rat × Rat)) ++ Example.patch1x1.texcoords.map (fun t =>
        ((t.1 + ((0 + 1 : Nat) : Rat) + 1 / 2) / ((4 : Nat) : Rat),
         (t.2 + ((0 + 1 : Nat) : Rat) + 1 / 2) / ((4 : Nat) : Rat))) =
      Example.atlas1.texcoords := by
  simp only [Example.patch1x1, Example.atlas1, List.map_cons, List.map_nil, List.nil_append]
  norm_num

/-- The new atlas of size 4 with padding 1 accepts the patch of one pixel, and
the atlas after the call is `atlas1`. -/
theorem insert_accepted_example :
    (TextureAtlas.new 4 1 1).insert Example.patch1x1 0 0 = .ok (true, Example.atlas1) := by
  have h1 : (TextureAtlas.new 4 1 1).insert Example.patch1x1 0 0 = .ok (true,
      { Example.atlas1 with
        texcoords := ([] : List (Rat × Rat)) ++ Example.patch1x1.texcoords.map (fun t =>
          ((t.1 + ((0 + 1 : Nat) : Rat) + 1 / 2) / ((4 : Nat) : Rat),
           (t.2 + ((0 + 1 : Nat) : Rat) + 1 / 2) / ((4 : Nat) : Rat))) }) := rfl
  rw [h1, atlas1_texcoords]

/-- C6. A failing `insert` changes nothing: when `insert` returns false, the
faces, the texture coordinate ids, the texture coordinates, the image and the
validity mask of the atlas are those before the call; so is the bin, which had
no room for the padded rectangle. -/
theorem insert_failure_atomic (atlas : TextureAtlas) (texture_patch : TexturePatch)
    (mean max : Rat) (atlas' : TextureAtlas)
    (hfalse : atlas.insert texture_patch mean max = .ok (false, atlas')) :
    (atlas'.faces = atlas.faces ∧ atlas'.texcoord_ids = atlas.texcoord_ids ∧
      atlas'.texcoords = atlas.texcoords ∧ atlas'.image = atlas.image ∧
      atlas'.validity_mask = atlas.validity_mask) ∧
      atlas'.bin = atlas.bin ∧
      atlas.bin.insert (texture_patch.image.width + 2 * atlas.padding)
        (texture_patch.image.height + 2 * atlas.padding) = none := by
  unfold TextureAtlas.insert at hfalse
  split at hfalse
  · cases hfalse
  · rename_i o a hins
    simp only [Except.ok.injEq, Prod.mk.injEq] at hfalse
    obtain ⟨ho, rfl⟩ := hfalse
    rcases TextureAtlas.insert_rect_cases atlas texture_patch mean max o a hins with
      ⟨_, rfl, hnone⟩ | ⟨r, bin, rfl, _, _⟩
    · exact ⟨⟨rfl, rfl, rfl, rfl, rfl⟩, rfl, hnone⟩
    · cases ho

/-- C6, at a failing call after an accepted one: the atlas of size 4 with
padding 1 that holds the patch of one pixel (`insert_accepted_example`) has no
room for a second padded rectangle of 3 by 3; `insert` returns false, and the
atlas it returns has the face, the coordinates, the pixels and the mask of the
accepted patch. -/
theorem insert_failure_atomic_witness :
    ∃ atlas', Example.atlas1.insert Example.patch1x1 0 0 = .ok (false, atlas') ∧
      atlas'.faces = [1] ∧ atlas'.texcoord_ids = [0] ∧
      atlas'.texcoords = [(3 / 8, 3 / 8), (5 / 8, 3 / 8), (3 / 8, 5 / 8)] ∧
      atlas'.image.data = [7, 7, 7, 0, 7, 7, 7, 0, 7, 7, 7, 0, 0, 0, 0, 0] ∧
      atlas'.validity_mask.data = [1, 1, 1, 0, 1, 1, 1, 0, 1, 1, 1, 0, 0, 0, 0, 0] ∧
      atlas'.bin.free = [⟨3, 0, 1, 3⟩, ⟨0, 3, 4, 1⟩] := by
  have hex : ∃ atlas', Example.atlas1.insert Example.patch1x1 0 0 = .ok (false, atlas') :=
    ⟨Example.atlas1, rfl⟩
  obtain ⟨atlas', hfalse⟩ := hex
  obtain ⟨⟨h1, h2, h3, h4, h5⟩, h6, _⟩ :=
    insert_failure_atomic Example.atlas1 Example.patch1x1 0 0 atlas' hfalse
  refine ⟨atlas', hfalse, ?_, ?_, ?_, ?_, ?_, ?_⟩
  · rw [h1]; rfl
  · rw [h2]; rfl
  · rw [h3]; rfl
  · rw [h4]; rfl
  · rw [h5]; rfl
  · rw [h6]; rfl

end Tex
